import Mathlib

/-!
# Verification of the `proxy_parse` HTTP request parsing core

Shallow embedding of the repository's `src/proxy_parse.hpp` (classes
`ParsedHeader` and `ParsedRequest`).  The header file declares the data model
and the member function signatures (`parse` returning `int` 0 or -1,
`unparse`/`unparseHeaders` returning strings, `totalLen`/`headersLen`,
`setHeader`/`getHeader`/`removeHeader`) but ships no function bodies, so the
behaviour of each operation is modelled from the specification while the
declared types (sentinel `int` return codes, a plain
`std::unordered_map<std::string, ParsedHeader>` holding the headers) are taken
from the code.

Strings are modelled as Lean `String`; the parser itself works on `List Char`
(the underlying data of a `String`).
-/

namespace ProxyParse

/-! ## Character-list utilities -/

/-- True when the list contains the two-character subsequence CR LF adjacently
(i.e. the substring `"\r\n"`). -/
def hasCRLF : List Char → Bool
  | [] => false
  | [_] => false
  | c :: d :: rest => (c = '\r' && d = '\n') || hasCRLF (d :: rest)

/-- Split a character list at every (leftmost-first) occurrence of CR LF.
Always returns at least one (possibly empty) line. -/
def splitCRLF : List Char → List (List Char)
  | [] => [[]]
  | [c] => [[c]]
  | c :: d :: rest =>
    if c = '\r' ∧ d = '\n' then [] :: splitCRLF rest
    else
      match splitCRLF (d :: rest) with
      | [] => [[c]]
      | l :: ls => (c :: l) :: ls

/-- Split a character list at every occurrence of the separator character
(empty tokens are kept, as with consecutive separators). -/
def splitChar (sep : Char) : List Char → List (List Char)
  | [] => [[]]
  | c :: rest =>
    if c = sep then [] :: splitChar sep rest
    else
      match splitChar sep rest with
      | [] => [[c]]
      | l :: ls => (c :: l) :: ls

/-- Split a header line at its first colon, returning the text before and
after it; `none` when the line contains no colon. -/
def splitFirstColon : List Char → Option (List Char × List Char)
  | [] => none
  | ':' :: rest => some ([], rest)
  | c :: rest => (splitFirstColon rest).map (fun p => (c :: p.1, p.2))

/-- Split an absolute URI into scheme and remainder: the scheme is the
(colon-free) text before the first colon, which must be immediately followed
by `"//"`; `none` when the URI has no such `<scheme>://` shape. -/
def splitScheme (u : List Char) : Option (List Char × List Char) :=
  match splitFirstColon u with
  | some (s, '/' :: '/' :: r) => some (s, r)
  | _ => none

/-- Strict lexicographic order on character lists (by `Char` code points). -/
def charListLt : List Char → List Char → Bool
  | [], [] => false
  | [], _ :: _ => true
  | _ :: _, [] => false
  | a :: as, b :: bs => a < b || (a = b && charListLt as bs)

/-- Strict lexicographic order on strings, used as the canonical bucket order
of the header map model. -/
def keyLt (a b : String) : Bool := charListLt a.data b.data

/-! ## Data model (`proxy_parse.hpp`) -/

/-- `class ParsedHeader`: one HTTP header, a key/value pair of owned strings. -/
structure ParsedHeader where
  key : String
  value : String
deriving DecidableEq, Repr

/-- Model of the `std::unordered_map<std::string, ParsedHeader>` member
`headers`.  An unordered map is extensionally a finite map from keys to
entries and retains no record of insertion order (the class declares no
side vector of names); we represent its contents canonically as an
association list kept strictly sorted by `keyLt` on keys.  Iteration
(serialization) order is therefore a function of the stored key set alone,
as with the real container, whose bucket iteration order does not track
insertion history. -/
abbrev HeaderMap := List ParsedHeader

/-- Lookup in the header map (`unordered_map::find`): exact, case-sensitive
key match. -/
def hmFind? (m : HeaderMap) (k : String) : Option ParsedHeader :=
  match m with
  | [] => none
  | h :: t => if h.key = k then some h else hmFind? t k

/-- Upsert into the header map (`headers[key] = ParsedHeader(key, value)`):
overwrites the entry when the key is present, otherwise inserts it at its
canonical position. -/
def hmInsert (m : HeaderMap) (k v : String) : HeaderMap :=
  match m with
  | [] => [⟨k, v⟩]
  | h :: t =>
    if k = h.key then ⟨k, v⟩ :: t
    else if keyLt k h.key then ⟨k, v⟩ :: h :: t
    else h :: hmInsert t k v

/-- Erase from the header map (`unordered_map::erase`). -/
def hmErase (m : HeaderMap) (k : String) : HeaderMap :=
  match m with
  | [] => []
  | h :: t => if h.key = k then t else h :: hmErase t k

/-- Representation invariant of the header map model: entries strictly
sorted by key (hence keys pairwise distinct — the map invariant of
`std::unordered_map`, which holds at most one entry per key). -/
def hmWF (m : HeaderMap) : Prop :=
  List.Pairwise (fun a b => keyLt a.key b.key = true) m

instance (m : HeaderMap) : Decidable (hmWF m) :=
  inferInstanceAs (Decidable (List.Pairwise _ m))

/-- `class ParsedRequest`: the request-line fields, the internal buffer
member `buf`, and the header map. -/
structure ParsedRequest where
  method : String
  protocol : String
  host : String
  port : String
  path : String
  version : String
  buf : String
  headers : HeaderMap
deriving DecidableEq, Repr

/-- A default-constructed `ParsedRequest`: all strings empty, no headers. -/
def ParsedRequest.empty : ParsedRequest :=
  ⟨"", "", "", "", "", "", "", []⟩

/-! ## Parse errors

Modelled from the spec: the enumerated error kinds of §7.  The C++ `parse`
member collapses these to the sentinel `int` `-1` (its declared contract is
"Returns 0 on success, -1 on failure"). -/

/-- The spec's enumerated parse-error kinds (§7). -/
inductive ParseError where
  | MalformedLine
  | MissingMethod
  | InvalidURI
  | InvalidHost
  | InvalidPort
  | InvalidVersion
  | MalformedHeaderLine
  | InvalidHeaderName
  | HeaderNotFound
deriving DecidableEq, Repr

/-- Modelled from the spec: the protocol's well-known port, `"80"` for
`http`; no well-known value is given for other protocols (modelled as the
empty string, so a portless URI of an unknown scheme round-trips). -/
def defaultPort (protocol : String) : String :=
  if protocol = "http" then "80" else ""

/-- Modelled from the spec: the version token must match
`HTTP/<digit>+.<digit>+`. -/
def isVersion (l : List Char) : Bool :=
  match l with
  | 'H' :: 'T' :: 'T' :: 'P' :: '/' :: rest =>
    let d1 := rest.takeWhile Char.isDigit
    match rest.dropWhile Char.isDigit with
    | '.' :: r2 => !d1.isEmpty && !r2.isEmpty && r2.all Char.isDigit
    | _ => false
  | _ => false

/-- The six request-line fields, still as character lists. -/
structure ReqLine where
  method : List Char
  protocol : List Char
  host : List Char
  port : List Char
  path : List Char
  version : List Char
deriving DecidableEq, Repr

/-- The host/port/path part of an absolute URI. -/
structure URITail where
  host : List Char
  port : List Char
  path : List Char
deriving DecidableEq, Repr

/-- A character that extends the host: anything but `/` and `:`. -/
def hostChar (c : Char) : Bool := !(c = '/' || c = ':')

/-- A character that extends the port: anything but `/`. -/
def notSlash (c : Char) : Bool := !(c = '/')

/-- Modelled from the spec (§4.1): after the scheme, the host runs to the
next `/`, `:` or end of URI and must be non-empty; a `:` introduces an
all-digit non-empty port (otherwise the port defaults per protocol); the
remainder from the next `/` is the path, defaulting to `"/"`. -/
def parseURITail (protocol : List Char) (rest : List Char) :
    Except ParseError URITail :=
  if (rest.takeWhile hostChar).isEmpty then .error .InvalidHost
  else
    match rest.dropWhile hostChar with
    | ':' :: r3 =>
      if (r3.takeWhile notSlash).isEmpty ||
          !(r3.takeWhile notSlash).all Char.isDigit then .error .InvalidPort
      else
        .ok ⟨rest.takeWhile hostChar, r3.takeWhile notSlash,
             if (r3.dropWhile notSlash).isEmpty then ['/']
             else r3.dropWhile notSlash⟩
    | after =>
      .ok ⟨rest.takeWhile hostChar, (defaultPort protocol.asString).data,
           if after.isEmpty then ['/'] else after⟩

/-- The request-line step after the scheme has been isolated: validate the
scheme, the URI tail and the version token. -/
def parseSchemeRest (m v scheme rest : List Char) : Except ParseError ReqLine :=
  if scheme.isEmpty then .error .InvalidURI
  else
    match parseURITail scheme rest with
    | .error e => .error e
    | .ok t =>
      if isVersion v then .ok ⟨m, scheme, t.host, t.port, t.path, v⟩
      else .error .InvalidVersion

/-- The request-line step once exactly three space-separated tokens have
been found. -/
def parseLineTokens (m u v : List Char) : Except ParseError ReqLine :=
  if m.isEmpty then .error .MissingMethod
  else
    match splitScheme u with
    | none => .error .InvalidURI
    | some (scheme, rest) => parseSchemeRest m v scheme rest

/-- Modelled from the spec (§4.1): request-line grammar
`METHOD SP absolute-URI SP VERSION` with exactly two single-space
separators; the URI must begin with a non-empty `<scheme>://`. -/
def parseRequestLine (l : List Char) : Except ParseError ReqLine :=
  match splitChar ' ' l with
  | [m, u, v] => parseLineTokens m u v
  | _ => .error .MalformedLine

/-- The header-line step once the line has been split at its first colon:
validate the name (verbatim, non-empty, no leading/trailing space) and strip
leading space/tab from the value. -/
def parseHeaderKV (k raw : List Char) : Except ParseError (String × String) :=
  if k.isEmpty then .error .InvalidHeaderName
  else if k.head? = some ' ' || k.getLast? = some ' ' then
    .error .InvalidHeaderName
  else
    .ok (k.asString, (raw.dropWhile (fun c => c = ' ' || c = '\t')).asString)

/-- Modelled from the spec (§4.2): a header line is split at its first
colon (no colon: `MalformedHeaderLine`); the name is taken verbatim and must
be non-empty without leading or trailing space (`InvalidHeaderName`
otherwise); the value is the text after the colon with leading space/tab
stripped and the rest preserved verbatim. -/
def parseHeaderLine (l : List Char) : Except ParseError (String × String) :=
  match splitFirstColon l with
  | none => .error .MalformedHeaderLine
  | some (k, raw) => parseHeaderKV k raw

/-- Modelled from the spec (§4.2): feed header lines one by one into the
header map, upserting (duplicate names: last value wins); the first failing
line aborts the whole parse. -/
def parseHeaders : List (List Char) → HeaderMap → Except ParseError HeaderMap
  | [], m => .ok m
  | l :: rest, m =>
    match parseHeaderLine l with
    | .error e => .error e
    | .ok kv => parseHeaders rest (hmInsert m kv.1 kv.2)

/-- Modelled from the spec (§4.2): the header block is the run of lines up
to (excluding) the first empty line — the header/body boundary — or to the
end of the buffer. -/
def headerBlock : List (List Char) → List (List Char)
  | [] => []
  | l :: rest => if l.isEmpty then [] else l :: headerBlock rest

/-- The whole-buffer step once the buffer has been split into lines: line 0
is the request line, the lines before the first blank line are the
headers. -/
def parseCoreLines (buffer : String) (l0 : List Char)
    (rest : List (List Char)) : Except ParseError ParsedRequest :=
  match parseRequestLine l0 with
  | .error e => .error e
  | .ok rl =>
    match parseHeaders (headerBlock rest) [] with
    | .error e => .error e
    | .ok hdrs =>
      .ok ⟨rl.method.asString, rl.protocol.asString, rl.host.asString,
           rl.port.asString, rl.path.asString, rl.version.asString,
           buffer, hdrs⟩

/-- Modelled from the spec (§4.3): split the buffer into CRLF-separated
lines, parse line 0 as the request line and the following lines up to the
first blank line as headers, failing fast on the first error.  On success
all fields are repopulated and `buf` stores the original buffer. -/
def parseCore (buffer : String) : Except ParseError ParsedRequest :=
  match splitCRLF buffer.data with
  | [] => .error .MalformedLine
  | l0 :: rest => parseCoreLines buffer l0 rest

/-- `int ParsedRequest::parse(const std::string& buffer)`: declared in the
code to return `0` on success and `-1` on failure; the parsing behaviour is
`parseCore` (modelled from the spec), whose error kind is discarded here.
On failure the object is left in an unspecified state (modelled: unchanged). -/
def ParsedRequest.parse (r : ParsedRequest) (buffer : String) :
    Int × ParsedRequest :=
  match parseCore buffer with
  | .ok r2 => (0, r2)
  | .error _ => (-1, r)

/-! ## Serialization and length accounting -/

/-- Modelled from the spec (§4.1 Serialize): the rendered request line
`METHOD SP protocol "://" host [":" port] path SP VERSION`, with the port
omitted exactly when it equals the protocol's default. -/
def renderRequestLine (r : ParsedRequest) : String :=
  r.method ++ " " ++ r.protocol ++ "://" ++ r.host ++
    (if r.port = defaultPort r.protocol then "" else ":" ++ r.port) ++
    r.path ++ " " ++ r.version

/-- One serialized header line: `name ": " value CRLF`. -/
def hdrString (h : ParsedHeader) : String :=
  h.key ++ ": " ++ h.value ++ "\r\n"

/-- Concatenation of the serialized header lines in table order. -/
def hdrsString : HeaderMap → String
  | [] => ""
  | h :: t => hdrString h ++ hdrsString t

/-- `std::string ParsedRequest::unparseHeaders() const`: modelled from the
spec (§4.3) — the header lines in table order, empty string for no
headers. -/
def ParsedRequest.unparseHeaders (r : ParsedRequest) : String :=
  hdrsString r.headers

/-- `std::string ParsedRequest::unparse() const`: modelled from the spec
(§4.3) — request line, CRLF, header lines, and the final boundary CRLF
(emitted even with zero headers). -/
def ParsedRequest.unparse (r : ParsedRequest) : String :=
  renderRequestLine r ++ "\r\n" ++ r.unparseHeaders ++ "\r\n"

/-- `size_t ParsedRequest::headersLen() const`: modelled from the spec
(§4.3) — the sum over the headers of `name.length + 2 + value.length + 2`,
computed without materializing the string. -/
def ParsedRequest.headersLen (r : ParsedRequest) : Nat :=
  (r.headers.map (fun h => h.key.length + 2 + h.value.length + 2)).sum

/-- `size_t ParsedRequest::totalLen() const`: modelled from the spec
(§4.3) — request-line length plus `headersLen()` plus the two boundary
CRLFs, computed arithmetically without materializing the string. -/
def ParsedRequest.totalLen (r : ParsedRequest) : Nat :=
  r.method.length + 1 + r.protocol.length + 3 + r.host.length +
    (if r.port = defaultPort r.protocol then 0 else 1 + r.port.length) +
    r.path.length + 1 + r.version.length + 2 + r.headersLen + 2

/-! ## Header CRUD -/

/-- `int ParsedRequest::setHeader(key, value)`: modelled from the spec
(§4.3) — rejects an empty name (`-1`), otherwise upserts and returns `0`. -/
def ParsedRequest.setHeader (r : ParsedRequest) (k v : String) :
    Int × ParsedRequest :=
  if k = "" then (-1, r)
  else (0, { r with headers := hmInsert r.headers k v })

/-- `ParsedHeader* ParsedRequest::getHeader(key)`: exact-match lookup,
`nullptr` (here `none`) when absent; a pure read that does not touch the
table. -/
def ParsedRequest.getHeader (r : ParsedRequest) (k : String) :
    Option ParsedHeader :=
  hmFind? r.headers k

/-- `int ParsedRequest::removeHeader(key)`: erases the entry and returns
`0`, or returns `-1` when the key is absent. -/
def ParsedRequest.removeHeader (r : ParsedRequest) (k : String) :
    Int × ParsedRequest :=
  match hmFind? r.headers k with
  | some _ => (0, { r with headers := hmErase r.headers k })
  | none => (-1, r)

/-- `unordered_map::size()`: the header count. -/
def ParsedRequest.headerCount (r : ParsedRequest) : Nat :=
  r.headers.length

/-- The serialization order of the header names. -/
def ParsedRequest.headerKeys (r : ParsedRequest) : List String :=
  r.headers.map ParsedHeader.key

/-- The characters of one serialized header line without its trailing CRLF:
`name ':' ' ' value`. -/
def charHdrLine (h : ParsedHeader) : List Char :=
  h.key.data ++ ':' :: ' ' :: h.value.data

/-- Join lines, terminating every line with CRLF. -/
def joinCRLF : List (List Char) → List Char
  | [] => []
  | l :: ls => l ++ '\r' :: '\n' :: joinCRLF ls

/-- Shape invariant of a header entry produced by parsing: non-empty key
without colon, leading or trailing space, or CRLF; value without leading
space/tab or CRLF. -/
structure GoodHdr (h : ParsedHeader) : Prop where
  k_ne : h.key.data ≠ []
  k_ncolon : ∀ c ∈ h.key.data, c ≠ ':'
  k_head : h.key.data.head? ≠ some ' '
  k_last : h.key.data.getLast? ≠ some ' '
  k_ncr : hasCRLF h.key.data = false
  v_head : ∀ c, h.value.data.head? = some c → c ≠ ' ' ∧ c ≠ '\t'
  v_ncr : hasCRLF h.value.data = false

/-- Shape invariant of a request produced by a successful `parseCore`: the
facts about each field that make re-serialization parse back to the same
request. -/
structure GoodReq (r : ParsedRequest) : Prop where
  m_ne : r.method.data ≠ []
  m_nsp : ' ' ∉ r.method.data
  m_ncr : hasCRLF r.method.data = false
  p_ne : r.protocol.data ≠ []
  p_nsp : ' ' ∉ r.protocol.data
  p_ncr : hasCRLF r.protocol.data = false
  p_ncolon : ∀ c ∈ r.protocol.data, c ≠ ':'
  h_ne : r.host.data ≠ []
  h_chars : ∀ c ∈ r.host.data, c ≠ '/' ∧ c ≠ ':'
  h_nsp : ' ' ∉ r.host.data
  h_ncr : hasCRLF r.host.data = false
  port_ok : r.port = defaultPort r.protocol ∨
    (r.port.data ≠ [] ∧ r.port.data.all Char.isDigit = true)
  port_nsp : ' ' ∉ r.port.data
  port_ncr : hasCRLF r.port.data = false
  pa_head : r.path.data.head? = some '/'
  pa_nsp : ' ' ∉ r.path.data
  pa_ncr : hasCRLF r.path.data = false
  v_ok : isVersion r.version.data = true
  v_nsp : ' ' ∉ r.version.data
  v_ncr : hasCRLF r.version.data = false
  hdr_wf : hmWF r.headers
  hdr_good : ∀ h ∈ r.headers, GoodHdr h

/-- Shape invariant of a parsed URI tail, relative to the scheme `pr` that
determines the default port. -/
structure GoodTail (pr : List Char) (t : URITail) : Prop where
  h_ne : t.host ≠ []
  h_chars : ∀ c ∈ t.host, c ≠ '/' ∧ c ≠ ':'
  h_nsp : ' ' ∉ t.host
  h_ncr : hasCRLF t.host = false
  port_ok : t.port = (defaultPort pr.asString).data ∨
    (t.port ≠ [] ∧ t.port.all Char.isDigit = true)
  port_nsp : ' ' ∉ t.port
  port_ncr : hasCRLF t.port = false
  pa_head : t.path.head? = some '/'
  pa_nsp : ' ' ∉ t.path
  pa_ncr : hasCRLF t.path = false

/-- Shape invariant of a parsed request line. -/
structure GoodLine (rl : ReqLine) : Prop where
  m_ne : rl.method ≠ []
  m_nsp : ' ' ∉ rl.method
  m_ncr : hasCRLF rl.method = false
  p_ne : rl.protocol ≠ []
  p_nsp : ' ' ∉ rl.protocol
  p_ncr : hasCRLF rl.protocol = false
  p_ncolon : ∀ c ∈ rl.protocol, c ≠ ':'
  h_ne : rl.host ≠ []
  h_chars : ∀ c ∈ rl.host, c ≠ '/' ∧ c ≠ ':'
  h_nsp : ' ' ∉ rl.host
  h_ncr : hasCRLF rl.host = false
  port_ok : rl.port = (defaultPort rl.protocol.asString).data ∨
    (rl.port ≠ [] ∧ rl.port.all Char.isDigit = true)
  port_nsp : ' ' ∉ rl.port
  port_ncr : hasCRLF rl.port = false
  pa_head : rl.path.head? = some '/'
  pa_nsp : ' ' ∉ rl.path
  pa_ncr : hasCRLF rl.path = false
  v_ok : isVersion rl.version = true
  v_nsp : ' ' ∉ rl.version
  v_ncr : hasCRLF rl.version = false

/-! ## Order lemmas for the canonical key order -/

theorem charListLt_irrefl (l : List Char) : charListLt l l = false := by
  induction l with
  | nil => rfl
  | cons a as ih => simp [charListLt, ih, lt_irrefl]

theorem charListLt_trans {a b c : List Char} (h1 : charListLt a b = true)
    (h2 : charListLt b c = true) : charListLt a c = true := by
  induction a generalizing b c with
  | nil =>
    cases b with
    | nil => simp [charListLt] at h1
    | cons y ys =>
      cases c with
      | nil => simp [charListLt] at h2
      | cons z zs => simp [charListLt]
  | cons x xs ih =>
    cases b with
    | nil => simp [charListLt] at h1
    | cons y ys =>
      cases c with
      | nil => simp [charListLt] at h2
      | cons z zs =>
        simp only [charListLt, Bool.or_eq_true, Bool.and_eq_true,
          decide_eq_true_eq] at h1 h2 ⊢
        rcases h1 with h1 | ⟨rfl, h1⟩
        · rcases h2 with h2 | ⟨rfl, h2⟩
          · exact Or.inl (lt_trans h1 h2)
          · exact Or.inl h1
        · rcases h2 with h2 | ⟨rfl, h2⟩
          · exact Or.inl h2
          · exact Or.inr ⟨rfl, ih h1 h2⟩

theorem charListLt_asymm {a b : List Char} (h1 : charListLt a b = true) :
    charListLt b a = false := by
  by_contra h
  have h2 : charListLt b a = true := by
    cases hba : charListLt b a with
    | false => exact absurd hba h
    | true => rfl
  have := charListLt_trans h1 h2
  rw [charListLt_irrefl] at this
  exact Bool.false_ne_true this

theorem charListLt_ne {a b : List Char} (h : charListLt a b = true) : a ≠ b := by
  rintro rfl
  rw [charListLt_irrefl] at h
  exact Bool.false_ne_true h

theorem charListLt_total {a b : List Char} (hab : charListLt a b = false)
    (hba : charListLt b a = false) : a = b := by
  induction a generalizing b with
  | nil =>
    cases b with
    | nil => rfl
    | cons y ys => simp [charListLt] at hab
  | cons x xs ih =>
    cases b with
    | nil => simp [charListLt] at hba
    | cons y ys =>
      simp only [charListLt, Bool.or_eq_false_iff, Bool.and_eq_false_iff,
        decide_eq_false_iff_not, decide_eq_true_eq] at hab hba
      obtain ⟨hxy, hab2⟩ := hab
      obtain ⟨hyx, hba2⟩ := hba
      have hxyeq : x = y := le_antisymm (le_of_not_lt hyx) (le_of_not_lt hxy)
      subst hxyeq
      rcases hab2 with h | hab2
      · exact absurd rfl h
      · rcases hba2 with h | hba2
        · exact absurd rfl h
        · rw [ih hab2 hba2]

theorem keyLt_irrefl (s : String) : keyLt s s = false :=
  charListLt_irrefl s.data

theorem keyLt_trans {a b c : String} (h1 : keyLt a b = true)
    (h2 : keyLt b c = true) : keyLt a c = true :=
  charListLt_trans h1 h2

theorem keyLt_asymm {a b : String} (h : keyLt a b = true) :
    keyLt b a = false :=
  charListLt_asymm h

theorem keyLt_ne {a b : String} (h : keyLt a b = true) : a ≠ b :=
  fun he => charListLt_ne h (congrArg String.data he)

theorem keyLt_total {a b : String} (hab : keyLt a b = false)
    (hba : keyLt b a = false) : a = b :=
  String.ext (charListLt_total hab hba)

/-! ## Header-map lemmas -/

theorem mem_hmInsert {m : HeaderMap} {k v : String} {x : ParsedHeader}
    (h : x ∈ hmInsert m k v) : x ∈ m ∨ x = ⟨k, v⟩ := by
  induction m with
  | nil =>
    rw [hmInsert, List.mem_singleton] at h
    exact Or.inr h
  | cons hd t ih =>
    by_cases h1 : k = hd.key
    · simp only [hmInsert, if_pos h1, List.mem_cons] at h
      rcases h with h | h
      · exact Or.inr h
      · exact Or.inl (List.mem_cons_of_mem _ h)
    · by_cases h2 : keyLt k hd.key = true
      · simp only [hmInsert, if_neg h1, if_pos h2, List.mem_cons] at h
        rcases h with h | h
        · exact Or.inr h
        · exact Or.inl (List.mem_cons.mpr h)
      · simp only [hmInsert, if_neg h1, if_neg h2, List.mem_cons] at h
        rcases h with h | h
        · exact Or.inl (by simp [h])
        · rcases ih h with h3 | h3
          · exact Or.inl (List.mem_cons_of_mem _ h3)
          · exact Or.inr h3

theorem hmInsert_wf {m : HeaderMap} (wf : hmWF m) (k v : String) :
    hmWF (hmInsert m k v) := by
  induction m with
  | nil => simp [hmInsert, hmWF]
  | cons hd t ih =>
    have wft : hmWF t := (List.pairwise_cons.mp wf).2
    have wfhd : ∀ x ∈ t, keyLt hd.key x.key = true :=
      (List.pairwise_cons.mp wf).1
    by_cases h1 : k = hd.key
    · simp only [hmInsert, if_pos h1]
      exact List.pairwise_cons.mpr ⟨fun x hx => h1 ▸ wfhd x hx, wft⟩
    · by_cases h2 : keyLt k hd.key = true
      · simp only [hmInsert, if_neg h1, if_pos h2]
        refine List.pairwise_cons.mpr ⟨?_, wf⟩
        intro x hx
        rcases List.mem_cons.mp hx with rfl | hx
        · exact h2
        · exact keyLt_trans h2 (wfhd x hx)
      · simp only [hmInsert, if_neg h1, if_neg h2]
        refine List.pairwise_cons.mpr ⟨?_, ih wft⟩
        intro x hx
        rcases mem_hmInsert hx with hx | rfl
        · exact wfhd x hx
        · show keyLt hd.key k = true
          cases h3 : keyLt hd.key k with
          | true => rfl
          | false =>
            exact absurd (keyLt_total h3 (Bool.of_not_eq_true h2)).symm h1

theorem hmInsert_append_of_lt {m : HeaderMap} {k : String} (v : String)
    (h : ∀ x ∈ m, keyLt x.key k = true) : hmInsert m k v = m ++ [⟨k, v⟩] := by
  induction m with
  | nil => rfl
  | cons hd t ih =>
    have hhd : keyLt hd.key k = true := h hd (List.mem_cons_self _ _)
    have h1 : k ≠ hd.key := fun he => keyLt_ne hhd he.symm
    have h2 : keyLt k hd.key = false := keyLt_asymm hhd
    simp only [hmInsert, if_neg h1, h2, Bool.false_eq_true, if_false,
      List.cons_append, List.cons.injEq, true_and]
    exact ih fun x hx => h x (List.mem_cons_of_mem _ hx)

theorem keys_hmInsert_of_mem {m : HeaderMap} (wf : hmWF m) {k : String}
    (hk : k ∈ m.map ParsedHeader.key) (v : String) :
    (hmInsert m k v).map ParsedHeader.key = m.map ParsedHeader.key := by
  induction m with
  | nil => simp at hk
  | cons hd t ih =>
    have wft : hmWF t := (List.pairwise_cons.mp wf).2
    have wfhd : ∀ x ∈ t, keyLt hd.key x.key = true :=
      (List.pairwise_cons.mp wf).1
    by_cases h1 : k = hd.key
    · simp [hmInsert, if_pos h1, h1]
    · have hkt : k ∈ t.map ParsedHeader.key := by
        rcases List.mem_map.mp hk with ⟨x, hx, rfl⟩
        rcases List.mem_cons.mp hx with rfl | hx
        · exact absurd rfl h1
        · exact List.mem_map_of_mem _ hx
      have h2 : keyLt k hd.key = false := by
        rcases List.mem_map.mp hkt with ⟨x, hx, rfl⟩
        exact keyLt_asymm (wfhd x hx)
      simp only [hmInsert, if_neg h1, h2, Bool.false_eq_true, if_false,
        List.map_cons]
      rw [ih wft hkt]

theorem hmFind?_hmInsert_self (m : HeaderMap) (k v : String) :
    hmFind? (hmInsert m k v) k = some ⟨k, v⟩ := by
  induction m with
  | nil => simp [hmInsert, hmFind?]
  | cons hd t ih =>
    by_cases h1 : k = hd.key
    · simp [hmInsert, if_pos h1, hmFind?]
    · by_cases h2 : keyLt k hd.key = true
      · simp [hmInsert, if_neg h1, if_pos h2, hmFind?]
      · have h1' : hd.key ≠ k := fun he => h1 he.symm
        simp [hmInsert, if_neg h1, if_neg h2, hmFind?, h1', ih]

theorem keys_nodup_of_wf {m : HeaderMap} (wf : hmWF m) :
    (m.map ParsedHeader.key).Nodup := by
  refine List.Pairwise.map _ ?_ wf
  intro a b hab
  exact keyLt_ne hab

/-! ## Length accounting lemmas -/

theorem length_hdrString (h : ParsedHeader) :
    (hdrString h).length = h.key.length + 2 + h.value.length + 2 := by
  have h1 : (": " : String).length = 2 := rfl
  have h2 : ("\r\n" : String).length = 2 := rfl
  simp [hdrString, String.length_append, h1, h2]

theorem length_hdrsString (m : HeaderMap) :
    (hdrsString m).length =
      (m.map (fun h => h.key.length + 2 + h.value.length + 2)).sum := by
  induction m with
  | nil => rfl
  | cons h t ih =>
    simp [hdrsString, String.length_append, length_hdrString, ih]

theorem str_append_empty (s : String) : s ++ "" = s :=
  String.ext (by simp [String.data_append])

theorem length_renderRequestLine (r : ParsedRequest) :
    (renderRequestLine r).length =
      r.method.length + 1 + r.protocol.length + 3 + r.host.length +
        (if r.port = defaultPort r.protocol then 0 else 1 + r.port.length) +
        r.path.length + 1 + r.version.length := by
  have hsp : (" " : String).length = 1 := rfl
  have hsc : ("://" : String).length = 3 := rfl
  have hco : (":" : String).length = 1 := rfl
  have hem : ("" : String).length = 0 := rfl
  unfold renderRequestLine
  by_cases hp : r.port = defaultPort r.protocol
  · simp only [if_pos hp, String.length_append, hsp, hsc, hem]
  · simp only [if_neg hp, String.length_append, hsp, hsc, hco]

/-! ## Miscellaneous helper lemmas -/

theorem hmFind?_eq_none {m : HeaderMap} {k : String}
    (h : ∀ x ∈ m, x.key ≠ k) : hmFind? m k = none := by
  induction m with
  | nil => rfl
  | cons hd t ih =>
    rw [hmFind?, if_neg (h hd (List.mem_cons_self _ _))]
    exact ih fun x hx => h x (List.mem_cons_of_mem _ hx)

theorem mem_keys_hmInsert_self (m : HeaderMap) (k v : String) :
    k ∈ (hmInsert m k v).map ParsedHeader.key := by
  induction m with
  | nil => simp [hmInsert]
  | cons hd t ih =>
    by_cases h1 : k = hd.key
    · simp [hmInsert, if_pos h1]
    · by_cases h2 : keyLt k hd.key = true
      · simp [hmInsert, if_neg h1, if_pos h2]
      · simp only [hmInsert, if_neg h1, h2, Bool.false_eq_true, if_false,
          List.map_cons, List.mem_cons]
        exact Or.inr ih

theorem splitFirstColon_cons_ne {c : Char} (rest : List Char) (hc : c ≠ ':') :
    splitFirstColon (c :: rest) =
      (splitFirstColon rest).map (fun p => (c :: p.1, p.2)) := by
  simp [splitFirstColon, hc]

theorem splitFirstColon_eq_none {l : List Char} (h : ∀ c ∈ l, c ≠ ':') :
    splitFirstColon l = none := by
  induction l with
  | nil => rfl
  | cons c rest ih =>
    rw [splitFirstColon_cons_ne rest (h c (List.mem_cons_self _ _)),
      ih fun x hx => h x (List.mem_cons_of_mem _ hx)]
    rfl

theorem countP_key_of_wf {m : HeaderMap} (wf : hmWF m) {k : String}
    (hk : k ∈ m.map ParsedHeader.key) :
    m.countP (fun h => h.key = k) = 1 := by
  induction m with
  | nil => simp at hk
  | cons hd t ih =>
    have wft : hmWF t := (List.pairwise_cons.mp wf).2
    have wfhd : ∀ x ∈ t, keyLt hd.key x.key = true :=
      (List.pairwise_cons.mp wf).1
    by_cases h1 : hd.key = k
    · have hz : t.countP (fun h => h.key = k) = 0 := by
        rw [List.countP_eq_zero]
        intro x hx
        have : x.key ≠ hd.key := fun he => keyLt_ne (wfhd x hx) he.symm
        simp [h1 ▸ this]
      rw [List.countP_cons, hz, if_pos (by simp [h1])]
    · have hkt : k ∈ t.map ParsedHeader.key := by
        rcases List.mem_map.mp hk with ⟨x, hx, rfl⟩
        rcases List.mem_cons.mp hx with rfl | hx
        · exact absurd rfl h1
        · exact List.mem_map_of_mem _ hx
      rw [List.countP_cons, ih wft hkt, if_neg (by simp [h1])]

/-! ## CRLF facts -/

theorem hasCRLF_cons_cons {c d : Char} {l : List Char}
    (h : hasCRLF (c :: d :: l) = false) :
    ¬(c = '\r' ∧ d = '\n') ∧ hasCRLF (d :: l) = false := by
  simp only [hasCRLF, Bool.or_eq_false_iff, Bool.and_eq_false_iff,
    decide_eq_false_iff_not] at h
  refine ⟨fun he => ?_, h.2⟩
  rcases h.1 with h1 | h1
  · exact h1 he.1
  · exact h1 he.2

theorem hasCRLF_cons_false {c : Char} {l : List Char}
    (h : hasCRLF (c :: l) = false) : hasCRLF l = false := by
  cases l with
  | nil => rfl
  | cons d rest => exact (hasCRLF_cons_cons h).2

theorem hasCRLF_cons_false_of {c : Char} {l : List Char}
    (h1 : hasCRLF l = false) (h2 : ¬(c = '\r' ∧ l.head? = some '\n')) :
    hasCRLF (c :: l) = false := by
  cases l with
  | nil => rfl
  | cons d rest =>
    simp only [hasCRLF, Bool.or_eq_false_iff, Bool.and_eq_false_iff,
      decide_eq_false_iff_not]
    refine ⟨?_, h1⟩
    by_cases hc : c = '\r'
    · exact Or.inr fun hd => h2 ⟨hc, by rw [hd]; rfl⟩
    · exact Or.inl hc

theorem hasCRLF_cons_of (c : Char) {l : List Char} (h : hasCRLF l = true) :
    hasCRLF (c :: l) = true := by
  cases l with
  | nil => cases h
  | cons d rest => simp [hasCRLF, h]

theorem hasCRLF_cr_head {l : List Char} (h : l.head? = some '\n') :
    hasCRLF ('\r' :: l) = true := by
  cases l with
  | nil => cases h
  | cons d rest =>
    simp only [List.head?_cons, Option.some.injEq] at h
    simp [hasCRLF, h]

theorem hasCRLF_append_left {a : List Char} (b : List Char)
    (h : hasCRLF a = true) : hasCRLF (a ++ b) = true := by
  induction a using hasCRLF.induct with
  | case1 => cases h
  | case2 c => cases h
  | case3 c d rest ih =>
    simp only [hasCRLF, Bool.or_eq_true, Bool.and_eq_true, decide_eq_true_eq]
      at h
    rcases h with h | h
    · show hasCRLF (c :: d :: (rest ++ b)) = true
      simp [hasCRLF, h.1, h.2]
    · show hasCRLF (c :: d :: (rest ++ b)) = true
      simp only [hasCRLF, Bool.or_eq_true]
      exact Or.inr (ih h)

theorem hasCRLF_append_right (a : List Char) {b : List Char}
    (h : hasCRLF b = true) : hasCRLF (a ++ b) = true := by
  induction a with
  | nil => exact h
  | cons c rest ih => exact hasCRLF_cons_of c ih

theorem hasCRLF_append_false {a b : List Char}
    (h : hasCRLF (a ++ b) = false) : hasCRLF a = false ∧ hasCRLF b = false := by
  constructor
  · cases ha : hasCRLF a with
    | false => rfl
    | true => rw [hasCRLF_append_left b ha] at h; cases h
  · cases hb : hasCRLF b with
    | false => rfl
    | true => rw [hasCRLF_append_right a hb] at h; cases h

theorem hasCRLF_append_ne {a b : List Char} (ha : hasCRLF a = false)
    (hb : hasCRLF b = false) (hh : b.head? ≠ some '\n') :
    hasCRLF (a ++ b) = false := by
  induction a using hasCRLF.induct with
  | case1 => exact hb
  | case2 c =>
    show hasCRLF (c :: b) = false
    exact hasCRLF_cons_false_of hb fun hand => hh hand.2
  | case3 c d rest ih =>
    obtain ⟨hcd, hrest⟩ := hasCRLF_cons_cons ha
    show hasCRLF (c :: d :: (rest ++ b)) = false
    have htail : hasCRLF (d :: (rest ++ b)) = false := ih hrest
    simp only [hasCRLF, Bool.or_eq_false_iff, Bool.and_eq_false_iff,
      decide_eq_false_iff_not]
    constructor
    · by_cases hc : c = '\r'
      · exact Or.inr fun hd => hcd ⟨hc, hd⟩
      · exact Or.inl hc
    · exact htail

theorem hasCRLF_cons_ne {c : Char} {l : List Char} (hc : c ≠ '\r')
    (hl : hasCRLF l = false) : hasCRLF (c :: l) = false :=
  hasCRLF_cons_false_of hl fun hand => hc hand.1

theorem hasCRLF_of_no_cr {l : List Char} (h : '\r' ∉ l) :
    hasCRLF l = false := by
  induction l with
  | nil => rfl
  | cons c rest ih =>
    exact hasCRLF_cons_ne (fun he => h (he ▸ List.mem_cons_self _ _))
      (ih fun hm => h (List.mem_cons_of_mem _ hm))

/-! ## splitCRLF facts -/

theorem splitCRLF_ne_nil (l : List Char) : splitCRLF l ≠ [] := by
  induction l using splitCRLF.induct with
  | case1 => simp [splitCRLF]
  | case2 c => simp [splitCRLF]
  | case3 c d rest hcd ih => simp [splitCRLF, if_pos hcd]
  | case4 c d rest hcd hnil ih => exact absurd hnil ih
  | case5 c d rest hcd l0 ls hcons ih =>
    simp [splitCRLF, if_neg hcd, hcons]

theorem splitCRLF_crlf (s : List Char) :
    splitCRLF ('\r' :: '\n' :: s) = [] :: splitCRLF s := by
  simp [splitCRLF]

theorem splitCRLF_first_head {l t : List Char} {ts : List (List Char)}
    (h : splitCRLF l = t :: ts) : t = [] ∨ t.head? = l.head? := by
  induction l using splitCRLF.induct with
  | case1 =>
    have h2 : ([] : List Char) :: [] = t :: ts := h
    exact Or.inl (List.cons.inj h2).1.symm
  | case2 c =>
    have h2 : [c] :: [] = t :: ts := h
    rw [← (List.cons.inj h2).1]
    exact Or.inr rfl
  | case3 c d rest hcd ih =>
    rw [splitCRLF, if_pos hcd] at h
    exact Or.inl (List.cons.inj h).1.symm
  | case4 c d rest hcd hnil ih => exact absurd hnil (splitCRLF_ne_nil _)
  | case5 c d rest hcd l0 ls hcons ih =>
    rw [splitCRLF, if_neg hcd, hcons] at h
    have h2 : (c :: l0) :: ls = t :: ts := h
    rw [← (List.cons.inj h2).1]
    exact Or.inr rfl

theorem mem_splitCRLF_ncr (l : List Char) :
    ∀ t ∈ splitCRLF l, hasCRLF t = false := by
  induction l using splitCRLF.induct with
  | case1 =>
    intro t ht
    rw [List.mem_singleton.mp ht]
    rfl
  | case2 c =>
    intro t ht
    rw [List.mem_singleton.mp ht]
    rfl
  | case3 c d rest hcd ih =>
    intro t ht
    rw [splitCRLF, if_pos hcd, List.mem_cons] at ht
    rcases ht with rfl | ht
    · rfl
    · exact ih t ht
  | case4 c d rest hcd hnil ih => exact absurd hnil (splitCRLF_ne_nil _)
  | case5 c d rest hcd l0 ls hcons ih =>
    intro t ht
    rw [splitCRLF, if_neg hcd, hcons] at ht
    have ht2 : t ∈ (c :: l0) :: ls := ht
    rcases List.mem_cons.mp ht2 with rfl | ht3
    · have hl0 : hasCRLF l0 = false :=
        ih l0 (by rw [hcons]; exact List.mem_cons_self _ _)
      refine hasCRLF_cons_false_of hl0 fun hand => ?_
      rcases splitCRLF_first_head hcons with rfl | hh
      · cases hand.2
      · rw [hh] at hand
        simp only [List.head?_cons, Option.some.injEq] at hand
        exact hcd ⟨hand.1, hand.2⟩
    · exact ih t (by rw [hcons]; exact List.mem_cons_of_mem _ ht3)

theorem splitCRLF_append_crlf {l : List Char} (s : List Char)
    (hl : hasCRLF l = false) :
    splitCRLF (l ++ '\r' :: '\n' :: s) = l :: splitCRLF s := by
  induction l with
  | nil => simpa using splitCRLF_crlf s
  | cons c l2 ih =>
    cases l2 with
    | nil =>
      show splitCRLF (c :: '\r' :: '\n' :: s) = [c] :: splitCRLF s
      rw [splitCRLF, if_neg (by simp), splitCRLF_crlf s]
    | cons d l3 =>
      obtain ⟨hcd, hrest⟩ := hasCRLF_cons_cons hl
      show splitCRLF (c :: d :: (l3 ++ '\r' :: '\n' :: s)) = _
      rw [splitCRLF, if_neg hcd]
      have hih : splitCRLF ((d :: l3) ++ '\r' :: '\n' :: s) =
          (d :: l3) :: splitCRLF s := ih hrest
      rw [show d :: (l3 ++ '\r' :: '\n' :: s) =
        (d :: l3) ++ '\r' :: '\n' :: s from rfl, hih]

theorem splitCRLF_join {ls : List (List Char)}
    (h : ∀ l ∈ ls, hasCRLF l = false) :
    splitCRLF (joinCRLF ls ++ '\r' :: '\n' :: []) = ls ++ [[], []] := by
  induction ls with
  | nil =>
    rw [joinCRLF, List.nil_append, splitCRLF_crlf]
    rfl
  | cons l rest ih =>
    have h1 : joinCRLF (l :: rest) ++ '\r' :: '\n' :: [] =
        l ++ '\r' :: '\n' :: (joinCRLF rest ++ '\r' :: '\n' :: []) := by
      rw [joinCRLF]
      simp [List.append_assoc]
    rw [h1, splitCRLF_append_crlf _ (h l (List.mem_cons_self _ _)),
      ih fun x hx => h x (List.mem_cons_of_mem _ hx)]
    rfl

/-! ## splitChar facts -/

theorem splitChar_ne_nil (sep : Char) (l : List Char) :
    splitChar sep l ≠ [] := by
  induction l with
  | nil => simp [splitChar]
  | cons c rest ih =>
    by_cases hc : c = sep
    · simp [splitChar, if_pos hc]
    · rw [splitChar, if_neg hc]
      cases hs : splitChar sep rest with
      | nil => exact absurd hs ih
      | cons t ts => simp

theorem splitChar_first_head {sep : Char} {l t : List Char}
    {ts : List (List Char)} (h : splitChar sep l = t :: ts) :
    t = [] ∨ t.head? = l.head? := by
  cases l with
  | nil =>
    simp only [splitChar, List.cons.injEq] at h
    exact Or.inl h.1.symm
  | cons c rest =>
    by_cases hc : c = sep
    · rw [splitChar, if_pos hc] at h
      exact Or.inl (List.cons.injEq .. ▸ h).1.symm
    · rw [splitChar, if_neg hc] at h
      cases hs : splitChar sep rest with
      | nil => exact absurd hs (splitChar_ne_nil sep rest)
      | cons l0 ls =>
        rw [hs] at h
        have h2 : (c :: l0) :: ls = t :: ts := h
        rw [← (List.cons.inj h2).1]
        exact Or.inr rfl

theorem mem_splitChar_nsep {sep : Char} (l : List Char) :
    ∀ t ∈ splitChar sep l, sep ∉ t := by
  induction l with
  | nil =>
    intro t ht
    rw [List.mem_singleton.mp ht]
    exact List.not_mem_nil sep
  | cons c rest ih =>
    intro t ht
    by_cases hc : c = sep
    · rw [splitChar, if_pos hc, List.mem_cons] at ht
      rcases ht with rfl | ht
      · exact List.not_mem_nil sep
      · exact ih t ht
    · rw [splitChar, if_neg hc] at ht
      cases hs : splitChar sep rest with
      | nil => exact absurd hs (splitChar_ne_nil sep rest)
      | cons l0 ls =>
        rw [hs] at ht
        have h2 : t ∈ (c :: l0) :: ls := ht
        rcases List.mem_cons.mp h2 with rfl | h3
        · intro hm
          rcases List.mem_cons.mp hm with rfl | hm
          · exact hc rfl
          · exact ih l0 (by rw [hs]; exact List.mem_cons_self _ _) hm
        · exact ih t (by rw [hs]; exact List.mem_cons_of_mem _ h3)

theorem mem_splitChar_ncr {sep : Char} {l : List Char}
    (hl : hasCRLF l = false) :
    ∀ t ∈ splitChar sep l, hasCRLF t = false := by
  induction l with
  | nil =>
    intro t ht
    rw [List.mem_singleton.mp ht]
    rfl
  | cons c rest ih =>
    intro t ht
    have hrest : hasCRLF rest = false := hasCRLF_cons_false hl
    by_cases hc : c = sep
    · rw [splitChar, if_pos hc, List.mem_cons] at ht
      rcases ht with rfl | ht
      · rfl
      · exact ih hrest t ht
    · rw [splitChar, if_neg hc] at ht
      cases hs : splitChar sep rest with
      | nil => exact absurd hs (splitChar_ne_nil sep rest)
      | cons l0 ls =>
        rw [hs] at ht
        have h2 : t ∈ (c :: l0) :: ls := ht
        rcases List.mem_cons.mp h2 with rfl | h3
        · have hl0 : hasCRLF l0 = false :=
            ih hrest l0 (by rw [hs]; exact List.mem_cons_self _ _)
          refine hasCRLF_cons_false_of hl0 fun hand => ?_
          rcases splitChar_first_head hs with rfl | hh
          · cases hand.2
          · rw [hh] at hand
            rw [hand.1, hasCRLF_cr_head hand.2] at hl
            cases hl
        · exact ih hrest t (by rw [hs]; exact List.mem_cons_of_mem _ h3)

theorem splitChar_append {sep : Char} {a : List Char} (b : List Char)
    (ha : sep ∉ a) : splitChar sep (a ++ sep :: b) = a :: splitChar sep b := by
  induction a with
  | nil => simp [splitChar]
  | cons c a2 ih =>
    have hc : c ≠ sep := fun he => ha (he ▸ List.mem_cons_self _ _)
    rw [List.cons_append, splitChar, if_neg hc,
      ih fun hm => ha (List.mem_cons_of_mem _ hm)]

theorem splitChar_single {sep : Char} {l : List Char} (h : sep ∉ l) :
    splitChar sep l = [l] := by
  induction l with
  | nil => rfl
  | cons c rest ih =>
    have hc : c ≠ sep := fun he => h (he ▸ List.mem_cons_self _ _)
    rw [splitChar, if_neg hc, ih fun hm => h (List.mem_cons_of_mem _ hm)]

theorem splitChar_three {sep : Char} {m u v : List Char} (hm : sep ∉ m)
    (hu : sep ∉ u) (hv : sep ∉ v) :
    splitChar sep (m ++ sep :: (u ++ sep :: v)) = [m, u, v] := by
  rw [splitChar_append _ hm, splitChar_append _ hu, splitChar_single hv]

/-! ## splitFirstColon and splitScheme facts -/

theorem splitFirstColon_sound {l k v : List Char}
    (h : splitFirstColon l = some (k, v)) :
    l = k ++ ':' :: v ∧ ∀ c ∈ k, c ≠ ':' := by
  induction l generalizing k v with
  | nil => cases h
  | cons c rest ih =>
    by_cases hc : c = ':'
    · subst hc
      have h2 : some (([] : List Char), rest) = some (k, v) := h
      obtain ⟨hk, hv⟩ := Prod.mk.inj (Option.some.inj h2)
      subst hk
      subst hv
      exact ⟨rfl, by simp⟩
    · rw [splitFirstColon_cons_ne rest hc] at h
      cases hrec : splitFirstColon rest with
      | none => rw [hrec] at h; cases h
      | some p =>
        rw [hrec] at h
        have h2 : some (c :: p.1, p.2) = some (k, v) := h
        obtain ⟨hk, hv⟩ := Prod.mk.inj (Option.some.inj h2)
        subst hk
        subst hv
        obtain ⟨hl, hcf⟩ := ih (k := p.1) (v := p.2) (by rw [hrec])
        constructor
        · rw [List.cons_append, ← hl]
        · intro x hx
          rcases List.mem_cons.mp hx with rfl | hx
          · exact hc
          · exact hcf x hx

theorem splitFirstColon_append {s : List Char} (t : List Char)
    (h : ∀ c ∈ s, c ≠ ':') : splitFirstColon (s ++ ':' :: t) = some (s, t) := by
  induction s with
  | nil => rfl
  | cons c s2 ih =>
    rw [List.cons_append,
      splitFirstColon_cons_ne _ (h c (List.mem_cons_self _ _)),
      ih fun x hx => h x (List.mem_cons_of_mem _ hx)]
    rfl

theorem splitScheme_sound {u s r : List Char}
    (h : splitScheme u = some (s, r)) :
    u = s ++ ':' :: '/' :: '/' :: r ∧ ∀ c ∈ s, c ≠ ':' := by
  unfold splitScheme at h
  split at h
  · next s2 r2 heq =>
    obtain ⟨hk, hv⟩ := Prod.mk.inj (Option.some.inj h)
    subst hk
    subst hv
    exact splitFirstColon_sound heq
  · cases h

theorem splitScheme_append {s : List Char} (r : List Char)
    (h : ∀ c ∈ s, c ≠ ':') :
    splitScheme (s ++ ':' :: '/' :: '/' :: r) = some (s, r) := by
  unfold splitScheme
  rw [splitFirstColon_append _ h]
  rfl

/-! ## takeWhile and dropWhile facts -/

theorem takeWhile_dropWhile_append {p : Char → Bool} {a b : List Char}
    (ha : ∀ c ∈ a, p c = true) (hb : ∀ c, b.head? = some c → p c = false) :
    (a ++ b).takeWhile p = a ∧ (a ++ b).dropWhile p = b := by
  induction a with
  | nil =>
    cases b with
    | nil => exact ⟨rfl, rfl⟩
    | cons c bt =>
      have hc : p c = false := hb c rfl
      simp [List.takeWhile_cons, List.dropWhile_cons, hc]
  | cons c a2 ih =>
    have hc : p c = true := ha c (List.mem_cons_self _ _)
    obtain ⟨h1, h2⟩ := ih fun x hx => ha x (List.mem_cons_of_mem _ hx)
    simp [List.takeWhile_cons, List.dropWhile_cons, hc, h1, h2]

theorem dropWhile_head_false {p : Char → Bool} {l : List Char} {c : Char}
    (h : (l.dropWhile p).head? = some c) : p c = false := by
  induction l with
  | nil => cases h
  | cons d rest ih =>
    by_cases hd : p d
    · rw [List.dropWhile_cons_of_pos hd] at h
      exact ih h
    · rw [List.dropWhile_cons_of_neg hd] at h
      simp only [List.head?_cons, Option.some.injEq] at h
      rw [← h]
      exact Bool.of_not_eq_true hd

theorem dropWhile_eq_self_of_head {p : Char → Bool} {l : List Char}
    (h : ∀ c, l.head? = some c → p c = false) : l.dropWhile p = l := by
  cases l with
  | nil => rfl
  | cons c rest => exact List.dropWhile_cons_of_neg (by rw [h c rfl]; simp)

theorem isDigit_ne {c : Char} (h : c.isDigit = true) :
    c ≠ '/' ∧ c ≠ ':' ∧ c ≠ ' ' ∧ c ≠ '\r' := by
  refine ⟨?_, ?_, ?_, ?_⟩ <;> rintro rfl <;> exact absurd h (by decide)

theorem mem_of_mem_takeWhile {p : Char → Bool} {l : List Char} {c : Char}
    (h : c ∈ l.takeWhile p) : c ∈ l := by
  rw [← List.takeWhile_append_dropWhile p l]
  exact List.mem_append.mpr (Or.inl h)

theorem mem_of_mem_dropWhile {p : Char → Bool} {l : List Char} {c : Char}
    (h : c ∈ l.dropWhile p) : c ∈ l := by
  rw [← List.takeWhile_append_dropWhile p l]
  exact List.mem_append.mpr (Or.inr h)

theorem ncr_takeWhile (p : Char → Bool) {l : List Char}
    (h : hasCRLF l = false) : hasCRLF (l.takeWhile p) = false := by
  rw [← List.takeWhile_append_dropWhile p l] at h
  exact (hasCRLF_append_false h).1

theorem ncr_dropWhile (p : Char → Bool) {l : List Char}
    (h : hasCRLF l = false) : hasCRLF (l.dropWhile p) = false := by
  rw [← List.takeWhile_append_dropWhile p l] at h
  exact (hasCRLF_append_false h).2

/-! ## Analysis: the invariants a successful parse establishes -/

theorem defaultPort_nsp (s : String) : ' ' ∉ (defaultPort s).data := by
  unfold defaultPort
  split
  · decide
  · decide

theorem defaultPort_ncr (s : String) : hasCRLF (defaultPort s).data = false := by
  unfold defaultPort
  split
  · decide
  · decide

theorem isEmpty_false_ne_nil {l : List Char} (h : ¬l.isEmpty = true) :
    l ≠ [] := by
  intro he
  rw [he] at h
  exact h rfl

theorem hostChar_mem {c : Char} (h : hostChar c = true) :
    c ≠ '/' ∧ c ≠ ':' := by
  unfold hostChar at h
  simp only [Bool.not_eq_eq_eq_not, Bool.not_true, Bool.or_eq_false_iff,
    decide_eq_false_iff_not] at h
  exact h

theorem parseURITail_sound {pr rest : List Char} {t : URITail}
    (hnsp : ' ' ∉ rest) (hncr : hasCRLF rest = false)
    (h : parseURITail pr rest = .ok t) : GoodTail pr t := by
  unfold parseURITail at h
  have hh_chars : ∀ c ∈ rest.takeWhile hostChar, c ≠ '/' ∧ c ≠ ':' :=
    fun c hc => hostChar_mem (List.mem_takeWhile_imp hc)
  have hh_nsp : ' ' ∉ rest.takeWhile hostChar :=
    fun hm => hnsp (mem_of_mem_takeWhile hm)
  have hh_ncr : hasCRLF (rest.takeWhile hostChar) = false :=
    ncr_takeWhile hostChar hncr
  have hafter_nsp : ' ' ∉ rest.dropWhile hostChar :=
    fun hm => hnsp (mem_of_mem_dropWhile hm)
  have hafter_ncr : hasCRLF (rest.dropWhile hostChar) = false :=
    ncr_dropWhile hostChar hncr
  split at h
  · cases h
  · next hhe =>
    have hh_ne : rest.takeWhile hostChar ≠ [] := isEmpty_false_ne_nil hhe
    split at h
    · next r3 heq =>
      split at h
      · cases h
      · next hguard =>
        rw [Except.ok.injEq] at h
        subst h
        simp only [Bool.or_eq_true, Bool.not_eq_eq_eq_not, Bool.not_true,
          not_or] at hguard
        obtain ⟨hpne, hpdig⟩ := hguard
        have hpdig2 : (r3.takeWhile notSlash).all Char.isDigit = true := by
          cases hd : (r3.takeWhile notSlash).all Char.isDigit with
          | false => exact absurd hd hpdig
          | true => rfl
        have hr3_nsp : ' ' ∉ r3 := fun hm => by
          have : ' ' ∈ rest.dropWhile hostChar := by
            rw [heq]; exact List.mem_cons_of_mem _ hm
          exact hafter_nsp this
        have hr3_ncr : hasCRLF r3 = false := by
          have := hafter_ncr
          rw [heq] at this
          exact hasCRLF_cons_false this
        refine ⟨hh_ne, hh_chars, hh_nsp, hh_ncr, Or.inr ⟨?_, hpdig2⟩, ?_,
          ?_, ?_, ?_, ?_⟩
        · exact isEmpty_false_ne_nil hpne
        · intro hm
          have := List.all_eq_true.mp hpdig2 _ hm
          exact (isDigit_ne this).2.2.1 rfl
        · refine hasCRLF_of_no_cr fun hm => ?_
          have := List.all_eq_true.mp hpdig2 _ hm
          exact (isDigit_ne this).2.2.2 rfl
        · show (if (r3.dropWhile notSlash).isEmpty then ['/']
              else r3.dropWhile notSlash).head? = some '/'
          split
          · rfl
          · next hr4 =>
            cases hr4' : r3.dropWhile notSlash with
            | nil => rw [hr4'] at hr4; exact absurd rfl hr4
            | cons c r5 =>
              have hcf : notSlash c = false :=
                dropWhile_head_false (by rw [hr4']; rfl)
              unfold notSlash at hcf
              simp only [Bool.not_eq_false', decide_eq_true_eq] at hcf
              rw [hcf]
              rfl
        · show ' ' ∉ (if (r3.dropWhile notSlash).isEmpty then ['/']
              else r3.dropWhile notSlash)
          split
          · decide
          · exact fun hm => hr3_nsp (mem_of_mem_dropWhile hm)
        · show hasCRLF (if (r3.dropWhile notSlash).isEmpty then ['/']
              else r3.dropWhile notSlash) = false
          split
          · rfl
          · exact ncr_dropWhile notSlash hr3_ncr
    · next a hne =>
      rw [Except.ok.injEq] at h
      subst h
      refine ⟨hh_ne, hh_chars, hh_nsp, hh_ncr, Or.inl rfl, defaultPort_nsp _,
        defaultPort_ncr _, ?_, ?_, ?_⟩
      · show (if (rest.dropWhile hostChar).isEmpty then ['/']
            else rest.dropWhile hostChar).head? = some '/'
        split
        · rfl
        · next hane =>
          cases ha' : rest.dropWhile hostChar with
          | nil => rw [ha'] at hane; exact absurd rfl hane
          | cons c r5 =>
            have hcf : hostChar c = false :=
              dropWhile_head_false (p := hostChar) (l := rest)
                (by rw [ha']; rfl)
            unfold hostChar at hcf
            simp only [Bool.not_eq_false', Bool.or_eq_true,
              decide_eq_true_eq] at hcf
            rcases hcf with hcf | hcf
            · rw [hcf]; rfl
            · rw [hcf] at ha'
              exact absurd ha' (hne r5)
      · show ' ' ∉ (if (rest.dropWhile hostChar).isEmpty then ['/']
            else rest.dropWhile hostChar)
        split
        · decide
        · exact hafter_nsp
      · show hasCRLF (if (rest.dropWhile hostChar).isEmpty then ['/']
            else rest.dropWhile hostChar) = false
        split
        · rfl
        · exact hafter_ncr

theorem parseRequestLine_sound {l : List Char} {rl : ReqLine}
    (hncr : hasCRLF l = false) (h : parseRequestLine l = .ok rl) :
    GoodLine rl := by
  unfold parseRequestLine at h
  split at h
  · next m u v heq =>
    have hm_mem : m ∈ splitChar ' ' l := by
      rw [heq]; exact List.mem_cons_self _ _
    have hu_mem : u ∈ splitChar ' ' l := by rw [heq]; simp
    have hv_mem : v ∈ splitChar ' ' l := by rw [heq]; simp
    have hm_nsp := mem_splitChar_nsep l m hm_mem
    have hu_nsp := mem_splitChar_nsep l u hu_mem
    have hv_nsp := mem_splitChar_nsep l v hv_mem
    have hm_ncr := mem_splitChar_ncr hncr m hm_mem
    have hu_ncr := mem_splitChar_ncr hncr u hu_mem
    have hv_ncr := mem_splitChar_ncr hncr v hv_mem
    unfold parseLineTokens at h
    split at h
    · cases h
    · next hmne =>
      split at h
      · cases h
      · next scheme rest heq2 =>
        unfold parseSchemeRest at h
        split at h
        · cases h
        · next hsne =>
          split at h
          · cases h
          · next t heq3 =>
            split at h
            · next hver =>
              rw [Except.ok.injEq] at h
              subst h
              obtain ⟨hu_eq, hs_ncolon⟩ := splitScheme_sound heq2
              have hu_ncr2 := hu_ncr
              rw [hu_eq] at hu_ncr2
              have hs_ncr := (hasCRLF_append_false hu_ncr2).1
              have hrest_ncr : hasCRLF rest = false :=
                hasCRLF_cons_false (hasCRLF_cons_false
                  (hasCRLF_cons_false (hasCRLF_append_false hu_ncr2).2))
              have hs_nsp : ' ' ∉ scheme := fun hm =>
                hu_nsp (by rw [hu_eq]; exact List.mem_append.mpr (Or.inl hm))
              have hrest_nsp : ' ' ∉ rest := fun hm =>
                hu_nsp (by
                  rw [hu_eq]
                  refine List.mem_append.mpr (Or.inr ?_)
                  exact List.mem_cons_of_mem _ (List.mem_cons_of_mem _
                    (List.mem_cons_of_mem _ hm)))
              have gt := parseURITail_sound hrest_nsp hrest_ncr heq3
              exact ⟨isEmpty_false_ne_nil hmne, hm_nsp, hm_ncr,
                isEmpty_false_ne_nil hsne, hs_nsp, hs_ncr, hs_ncolon,
                gt.h_ne, gt.h_chars, gt.h_nsp, gt.h_ncr, gt.port_ok,
                gt.port_nsp, gt.port_ncr, gt.pa_head, gt.pa_nsp, gt.pa_ncr,
                hver, hv_nsp, hv_ncr⟩
            · cases h
  · cases h

theorem parseHeaderLine_good {l : List Char} {kv : String × String}
    (hncr : hasCRLF l = false) (h : parseHeaderLine l = .ok kv) :
    GoodHdr ⟨kv.1, kv.2⟩ := by
  unfold parseHeaderLine at h
  split at h
  · cases h
  · next k raw heq =>
    unfold parseHeaderKV at h
    split at h
    · cases h
    · next hkne =>
      split at h
      · cases h
      · next hsp =>
        rw [Except.ok.injEq] at h
        subst h
        obtain ⟨hl_eq, hk_ncolon⟩ := splitFirstColon_sound heq
        have hl_ncr := hncr
        rw [hl_eq] at hl_ncr
        have hk_ncr := (hasCRLF_append_false hl_ncr).1
        have hraw_ncr : hasCRLF raw = false :=
          hasCRLF_cons_false (hasCRLF_append_false hl_ncr).2
        simp only [Bool.or_eq_true, decide_eq_true_eq, not_or] at hsp
        refine ⟨isEmpty_false_ne_nil hkne, hk_ncolon, hsp.1, hsp.2, hk_ncr,
          ?_, ncr_dropWhile _ hraw_ncr⟩
        intro c hc
        have := dropWhile_head_false hc
        simp only [Bool.or_eq_false_iff, decide_eq_false_iff_not] at this
        exact this

theorem parseHeaders_good : ∀ {ls : List (List Char)} {acc hdrs : HeaderMap},
    (∀ l ∈ ls, hasCRLF l = false) → hmWF acc → (∀ x ∈ acc, GoodHdr x) →
    parseHeaders ls acc = .ok hdrs → hmWF hdrs ∧ ∀ x ∈ hdrs, GoodHdr x := by
  intro ls
  induction ls with
  | nil =>
    intro acc hdrs _ hwf hgood h
    have h2 : Except.ok acc = Except.ok hdrs := h
    rw [Except.ok.injEq] at h2
    subst h2
    exact ⟨hwf, hgood⟩
  | cons l rest ih =>
    intro acc hdrs hncr hwf hgood h
    have h2 : (match parseHeaderLine l with
        | .error e => .error e
        | .ok kv => parseHeaders rest (hmInsert acc kv.1 kv.2)) =
        Except.ok hdrs := h
    cases hph : parseHeaderLine l with
    | error e => rw [hph] at h2; cases h2
    | ok kv =>
      rw [hph] at h2
      have hg := parseHeaderLine_good (hncr l (List.mem_cons_self _ _)) hph
      refine ih (fun x hx => hncr x (List.mem_cons_of_mem _ hx))
        (hmInsert_wf hwf _ _) ?_ h2
      intro x hx
      rcases mem_hmInsert hx with hx2 | rfl
      · exact hgood x hx2
      · exact hg

theorem headerBlock_subset : ∀ {ls : List (List Char)} {l : List Char},
    l ∈ headerBlock ls → l ∈ ls := by
  intro ls
  induction ls with
  | nil => intro l h; cases h
  | cons hd rest ih =>
    intro l h
    rw [headerBlock] at h
    by_cases hhd : hd.isEmpty
    · rw [if_pos hhd] at h; cases h
    · rw [if_neg hhd] at h
      rcases List.mem_cons.mp h with rfl | h2
      · exact List.mem_cons_self _ _
      · exact List.mem_cons_of_mem _ (ih h2)

theorem parseCore_ok_good {buffer : String} {r : ParsedRequest}
    (h : parseCore buffer = .ok r) : GoodReq r := by
  unfold parseCore at h
  split at h
  · cases h
  · next l0 rest heq =>
    unfold parseCoreLines at h
    split at h
    · cases h
    · next rl heq2 =>
      split at h
      · cases h
      · next hdrs heq3 =>
        rw [Except.ok.injEq] at h
        subst h
        have hl0ncr : hasCRLF l0 = false :=
          mem_splitCRLF_ncr buffer.data l0
            (by rw [heq]; exact List.mem_cons_self _ _)
        have gl := parseRequestLine_sound hl0ncr heq2
        have hlines : ∀ l ∈ headerBlock rest, hasCRLF l = false := fun l hl =>
          mem_splitCRLF_ncr buffer.data l
            (by rw [heq];
                exact List.mem_cons_of_mem _ (headerBlock_subset hl))
        obtain ⟨hwf, hgood⟩ := parseHeaders_good hlines List.Pairwise.nil
          (fun x hx => absurd hx (List.not_mem_nil x)) heq3
        refine ⟨gl.m_ne, gl.m_nsp, gl.m_ncr, gl.p_ne, gl.p_nsp, gl.p_ncr,
          gl.p_ncolon, gl.h_ne, gl.h_chars, gl.h_nsp, gl.h_ncr, ?_,
          gl.port_nsp, gl.port_ncr,
          gl.pa_head, gl.pa_nsp, gl.pa_ncr, gl.v_ok, gl.v_nsp, gl.v_ncr,
          hwf, hgood⟩
        rcases gl.port_ok with hp | hp
        · exact Or.inl (congrArg List.asString hp)
        · exact Or.inr hp

/-! ## Reconstruction: re-parsing a serialized request -/

theorem ne_nil_isEmpty_false {l : List Char} (h : l ≠ []) :
    l.isEmpty = false := by
  cases l with
  | nil => exact absurd rfl h
  | cons c t => rfl

theorem parseHeaderLine_render (h : ParsedHeader) (hg : GoodHdr h) :
    parseHeaderLine (charHdrLine h) = .ok (h.key, h.value) := by
  unfold parseHeaderLine charHdrLine
  rw [splitFirstColon_append (' ' :: h.value.data) hg.k_ncolon]
  show parseHeaderKV h.key.data (' ' :: h.value.data) = .ok (h.key, h.value)
  have hdrop : (' ' :: h.value.data).dropWhile
      (fun c => c = ' ' || c = '\t') = h.value.data := by
    rw [List.dropWhile_cons_of_pos (by decide)]
    refine dropWhile_eq_self_of_head fun c hc => ?_
    have := hg.v_head c hc
    simp only [Bool.or_eq_false_iff, decide_eq_false_iff_not]
    exact this
  unfold parseHeaderKV
  rw [ne_nil_isEmpty_false hg.k_ne, decide_eq_false hg.k_head,
    decide_eq_false hg.k_last, hdrop]
  rfl

theorem parseHeaders_rebuild : ∀ (m acc : HeaderMap), hmWF (acc ++ m) →
    (∀ x ∈ m, GoodHdr x) →
    parseHeaders (m.map charHdrLine) acc = .ok (acc ++ m) := by
  intro m
  induction m with
  | nil =>
    intro acc _ _
    rw [List.append_nil]
    rfl
  | cons hd tl ih =>
    intro acc hwf hgood
    have hstep : parseHeaders ((hd :: tl).map charHdrLine) acc =
        (match parseHeaderLine (charHdrLine hd) with
          | .error e => .error e
          | .ok kv => parseHeaders (tl.map charHdrLine)
              (hmInsert acc kv.1 kv.2)) := rfl
    rw [hstep, parseHeaderLine_render hd (hgood hd (List.mem_cons_self _ _))]
    have hins : hmInsert acc hd.key hd.value = acc ++ [hd] :=
      hmInsert_append_of_lt hd.value fun x hx =>
        (List.pairwise_append.mp hwf).2.2 x hx hd (List.mem_cons_self _ _)
    have hwf2 : hmWF ((acc ++ [hd]) ++ tl) := by
      rw [List.append_assoc, List.singleton_append]
      exact hwf
    have := ih (acc ++ [hd]) hwf2
      fun x hx => hgood x (List.mem_cons_of_mem _ hx)
    rw [List.append_assoc, List.singleton_append] at this
    show parseHeaders (tl.map charHdrLine) (hmInsert acc hd.key hd.value) = _
    rw [hins]
    exact this

theorem hdrsString_data (m : HeaderMap) :
    (hdrsString m).data = joinCRLF (m.map charHdrLine) := by
  induction m with
  | nil => rfl
  | cons h t ih =>
    have hcrlf : ("\r\n" : String).data = ['\r', '\n'] := rfl
    have hcs : (": " : String).data = [':', ' '] := rfl
    show (hdrString h ++ hdrsString t).data = _
    rw [String.data_append, ih]
    show (h.key ++ ": " ++ h.value ++ "\r\n").data ++ _ = _
    rw [String.data_append, String.data_append, String.data_append, hcrlf,
      hcs]
    show _ = (h.key.data ++ ':' :: ' ' :: h.value.data) ++
      '\r' :: '\n' :: joinCRLF (t.map charHdrLine)
    simp [List.append_assoc]

theorem charHdrLine_ncr (h : ParsedHeader) (hg : GoodHdr h) :
    hasCRLF (charHdrLine h) = false := by
  unfold charHdrLine
  refine hasCRLF_append_ne hg.k_ncr ?_ (by simp)
  refine hasCRLF_cons_ne (by decide) (hasCRLF_cons_ne (by decide) hg.v_ncr)

theorem charHdrLine_ne_nil (h : ParsedHeader) (hg : GoodHdr h) :
    charHdrLine h ≠ [] := by
  unfold charHdrLine
  cases hk : h.key.data with
  | nil => exact absurd hk hg.k_ne
  | cons c t => simp

theorem headerBlock_append {ls : List (List Char)}
    (junk : List (List Char)) (h : ∀ l ∈ ls, l ≠ []) :
    headerBlock (ls ++ [] :: junk) = ls := by
  induction ls with
  | nil => rfl
  | cons l rest ih =>
    rw [List.cons_append, headerBlock,
      if_neg (by
        rw [ne_nil_isEmpty_false (h l (List.mem_cons_self _ _))]
        exact Bool.false_ne_true),
      ih fun x hx => h x (List.mem_cons_of_mem _ hx)]

theorem renderRequestLine_data (r : ParsedRequest) :
    (renderRequestLine r).data =
      r.method.data ++ ' ' ::
        ((r.protocol.data ++ ':' :: '/' :: '/' ::
          (r.host.data ++
            (if r.port = defaultPort r.protocol then []
             else ':' :: r.port.data) ++ r.path.data)) ++
          ' ' :: r.version.data) := by
  have hsp : (" " : String).data = [' '] := rfl
  have hsc : ("://" : String).data = [':', '/', '/'] := rfl
  have hco : (":" : String).data = [':'] := rfl
  have hem : ("" : String).data = [] := rfl
  unfold renderRequestLine
  by_cases hp : r.port = defaultPort r.protocol
  · rw [if_pos hp, if_pos hp]
    simp only [String.data_append, hsp, hsc, hem, List.append_assoc,
      List.cons_append, List.nil_append, List.singleton_append]
  · rw [if_neg hp, if_neg hp]
    simp only [String.data_append, hsp, hsc, hco, List.append_assoc,
      List.cons_append, List.nil_append, List.singleton_append]

theorem unparse_data (r : ParsedRequest) :
    (r.unparse).data = (renderRequestLine r).data ++ '\r' :: '\n' ::
      (joinCRLF (r.headers.map charHdrLine) ++ '\r' :: '\n' :: []) := by
  have hcrlf : ("\r\n" : String).data = ['\r', '\n'] := rfl
  show (renderRequestLine r ++ "\r\n" ++ hdrsString r.headers ++
    "\r\n").data = _
  rw [String.data_append, String.data_append, String.data_append, hcrlf,
    hdrsString_data]
  simp [List.append_assoc]

theorem renderRequestLine_ncr (r : ParsedRequest) (g : GoodReq r) :
    hasCRLF (renderRequestLine r).data = false := by
  rw [renderRequestLine_data]
  have hhostpp : hasCRLF (r.host.data ++
      (if r.port = defaultPort r.protocol then []
       else ':' :: r.port.data)) = false := by
    by_cases hp : r.port = defaultPort r.protocol
    · rw [if_pos hp, List.append_nil]
      exact g.h_ncr
    · rw [if_neg hp]
      refine hasCRLF_append_ne g.h_ncr
        (hasCRLF_cons_ne (by decide) g.port_ncr) (by simp)
  have htail0 : hasCRLF (r.host.data ++
      (if r.port = defaultPort r.protocol then []
       else ':' :: r.port.data) ++ r.path.data) = false := by
    refine hasCRLF_append_ne hhostpp g.pa_ncr ?_
    rw [g.pa_head]
    simp
  have hu : hasCRLF (r.protocol.data ++ ':' :: '/' :: '/' ::
      (r.host.data ++
        (if r.port = defaultPort r.protocol then []
         else ':' :: r.port.data) ++ r.path.data)) = false := by
    refine hasCRLF_append_ne g.p_ncr ?_ (by simp)
    exact hasCRLF_cons_ne (by decide) (hasCRLF_cons_ne (by decide)
      (hasCRLF_cons_ne (by decide) htail0))
  refine hasCRLF_append_ne g.m_ncr ?_ (by simp)
  refine hasCRLF_cons_ne (by decide) ?_
  refine hasCRLF_append_ne hu ?_ (by simp)
  exact hasCRLF_cons_ne (by decide) g.v_ncr

theorem parseURITail_render (r : ParsedRequest) (g : GoodReq r) :
    parseURITail r.protocol.data
      (r.host.data ++
        (if r.port = defaultPort r.protocol then [] else ':' :: r.port.data)
        ++ r.path.data) =
      .ok ⟨r.host.data, r.port.data, r.path.data⟩ := by
  obtain ⟨t0, hpa⟩ : ∃ t0, r.path.data = '/' :: t0 := by
    cases hp2 : r.path.data with
    | nil =>
      have hph := g.pa_head
      rw [hp2] at hph
      cases hph
    | cons c t =>
      have hph := g.pa_head
      rw [hp2] at hph
      simp only [List.head?_cons, Option.some.injEq] at hph
      exact ⟨t, by rw [← hph]⟩
  have hostall : ∀ c ∈ r.host.data, hostChar c = true := by
    intro c hc
    unfold hostChar
    simp [(g.h_chars c hc).1, (g.h_chars c hc).2]
  by_cases hp : r.port = defaultPort r.protocol
  · rw [if_pos hp, List.append_nil]
    have hpathhead : ∀ c, r.path.data.head? = some c → hostChar c = false := by
      intro c hc
      rw [hpa] at hc
      simp only [List.head?_cons, Option.some.injEq] at hc
      rw [← hc]
      decide
    obtain ⟨htake, hdrop⟩ :=
      takeWhile_dropWhile_append (p := hostChar) hostall hpathhead
    unfold parseURITail
    rw [htake, hdrop, ne_nil_isEmpty_false g.h_ne, hpa, hp]
    rfl
  · rw [if_neg hp]
    have hshape : r.host.data ++ ':' :: r.port.data ++ r.path.data =
        r.host.data ++ ':' :: (r.port.data ++ r.path.data) := by
      simp [List.append_assoc]
    rw [hshape]
    rcases g.port_ok with hpd | hpd
    · exact absurd hpd hp
    obtain ⟨hpne, hpdig⟩ := hpd
    have hbhead : ∀ c, (':' :: (r.port.data ++ r.path.data)).head? = some c →
        hostChar c = false := by
      intro c hc
      simp only [List.head?_cons, Option.some.injEq] at hc
      rw [← hc]
      decide
    obtain ⟨htake, hdrop⟩ :=
      takeWhile_dropWhile_append (p := hostChar) hostall hbhead
    have hportall : ∀ c ∈ r.port.data, notSlash c = true := by
      intro c hc
      unfold notSlash
      simp [(isDigit_ne (List.all_eq_true.mp hpdig c hc)).1]
    have hpathhead2 : ∀ c, r.path.data.head? = some c → notSlash c = false := by
      intro c hc
      rw [hpa] at hc
      simp only [List.head?_cons, Option.some.injEq] at hc
      rw [← hc]
      decide
    obtain ⟨htake2, hdrop2⟩ :=
      takeWhile_dropWhile_append (p := notSlash) hportall hpathhead2
    unfold parseURITail
    rw [htake, hdrop, ne_nil_isEmpty_false g.h_ne]
    show (if (List.takeWhile notSlash (r.port.data ++ r.path.data)).isEmpty ||
          !(List.takeWhile notSlash (r.port.data ++ r.path.data)).all
            Char.isDigit then (Except.error ParseError.InvalidPort :
              Except ParseError URITail)
        else
          .ok ⟨r.host.data,
               List.takeWhile notSlash (r.port.data ++ r.path.data),
               if (List.dropWhile notSlash (r.port.data ++
                   r.path.data)).isEmpty then ['/']
               else List.dropWhile notSlash (r.port.data ++ r.path.data)⟩) =
      .ok ⟨r.host.data, r.port.data, r.path.data⟩
    rw [htake2, hdrop2, ne_nil_isEmpty_false hpne, hpdig, hpa]
    rfl

theorem parseRequestLine_render (r : ParsedRequest) (g : GoodReq r) :
    parseRequestLine (renderRequestLine r).data =
      .ok ⟨r.method.data, r.protocol.data, r.host.data, r.port.data,
           r.path.data, r.version.data⟩ := by
  rw [renderRequestLine_data]
  have hpp_nsp : ' ' ∉ (if r.port = defaultPort r.protocol then []
      else ':' :: r.port.data) := by
    split
    · exact List.not_mem_nil ' '
    · intro hm
      rcases List.mem_cons.mp hm with h1 | h1
      · exact absurd h1 (by decide)
      · exact g.port_nsp h1
  have hu_nsp : ' ' ∉ (r.protocol.data ++ ':' :: '/' :: '/' ::
      (r.host.data ++ (if r.port = defaultPort r.protocol then []
        else ':' :: r.port.data) ++ r.path.data)) := by
    intro hm
    rcases List.mem_append.mp hm with h1 | h1
    · exact g.p_nsp h1
    · rcases List.mem_cons.mp h1 with h2 | h2
      · exact absurd h2 (by decide)
      · rcases List.mem_cons.mp h2 with h3 | h3
        · exact absurd h3 (by decide)
        · rcases List.mem_cons.mp h3 with h4 | h4
          · exact absurd h4 (by decide)
          · rcases List.mem_append.mp h4 with h5 | h5
            · rcases List.mem_append.mp h5 with h6 | h6
              · exact g.h_nsp h6
              · exact hpp_nsp h6
            · exact g.pa_nsp h5
  unfold parseRequestLine
  rw [splitChar_three g.m_nsp hu_nsp g.v_nsp]
  show parseLineTokens r.method.data
      (r.protocol.data ++ ':' :: '/' :: '/' ::
        (r.host.data ++ (if r.port = defaultPort r.protocol then []
          else ':' :: r.port.data) ++ r.path.data)) r.version.data = _
  unfold parseLineTokens
  rw [ne_nil_isEmpty_false g.m_ne, splitScheme_append _ g.p_ncolon]
  show parseSchemeRest r.method.data r.version.data r.protocol.data
      (r.host.data ++ (if r.port = defaultPort r.protocol then []
        else ':' :: r.port.data) ++ r.path.data) = _
  unfold parseSchemeRest
  rw [ne_nil_isEmpty_false g.p_ne, parseURITail_render r g, g.v_ok]
  rfl

theorem parseCore_render {r : ParsedRequest} (g : GoodReq r) :
    parseCore r.unparse = .ok { r with buf := r.unparse } := by
  have hlinesncr : ∀ l ∈ r.headers.map charHdrLine, hasCRLF l = false := by
    intro l hl
    rcases List.mem_map.mp hl with ⟨h, hh, rfl⟩
    exact charHdrLine_ncr h (g.hdr_good h hh)
  have hlines : splitCRLF (r.unparse).data =
      (renderRequestLine r).data ::
        (r.headers.map charHdrLine ++ [[], []]) := by
    rw [unparse_data, splitCRLF_append_crlf _ (renderRequestLine_ncr r g),
      splitCRLF_join hlinesncr]
  unfold parseCore
  rw [hlines]
  show parseCoreLines r.unparse (renderRequestLine r).data
      (r.headers.map charHdrLine ++ [[], []]) = _
  unfold parseCoreLines
  rw [parseRequestLine_render r g]
  have hblock : headerBlock (r.headers.map charHdrLine ++ [[], []]) =
      r.headers.map charHdrLine :=
    headerBlock_append [[]] fun l hl => by
      rcases List.mem_map.mp hl with ⟨h, hh, rfl⟩
      exact charHdrLine_ne_nil h (g.hdr_good h hh)
  rw [hblock]
  have hrebuild : parseHeaders (r.headers.map charHdrLine) [] =
      .ok r.headers := by
    have := parseHeaders_rebuild r.headers []
      (by rw [List.nil_append]; exact g.hdr_wf) g.hdr_good
    rwa [List.nil_append] at this
  rw [hrebuild]
  rfl

/-! ## Claim theorems -/

/-- C1: for every `ParsedRequest` `r` (including the zero-header case),
`r.totalLen()` equals the length of `r.unparse()` and `r.headersLen()`
equals the length of `r.unparseHeaders()`. -/
theorem claim_C1 (r : ParsedRequest) :
    r.totalLen = r.unparse.length ∧ r.headersLen = r.unparseHeaders.length := by
  have hh : r.unparseHeaders.length = r.headersLen :=
    length_hdrsString r.headers
  constructor
  · have h2 : ("\r\n" : String).length = 2 := rfl
    show r.totalLen = (renderRequestLine r ++ "\r\n" ++ r.unparseHeaders ++ "\r\n").length
    rw [String.length_append, String.length_append, String.length_append,
      length_renderRequestLine, h2, hh]
    unfold ParsedRequest.totalLen
    omega
  · exact hh.symm

/-- C2: for every buffer that `parseCore` accepts, re-parsing the string
produced by `unparse()` of the result yields a `ParsedRequest` with the
same method, protocol, host, port, path, version and the same header
table (hence the same serialization order); only the internal `buf` member
holds the new buffer. -/
theorem claim_C2 (buffer : String) (r : ParsedRequest)
    (h : parseCore buffer = .ok r) :
    parseCore r.unparse = .ok { r with buf := r.unparse } :=
  parseCore_render (parseCore_ok_good h)

/-- Witness for C2 at the end-to-end example request. -/
theorem claim_C2_witness :
    parseCore (ParsedRequest.unparse
      ⟨"GET", "http", "www.example.com", "8080", "/path", "HTTP/1.1",
       "GET http://www.example.com:8080/path HTTP/1.1\r\nHost: www.example.com\r\nUser-Agent: test\r\n\r\n",
       [⟨"Host", "www.example.com"⟩, ⟨"User-Agent", "test"⟩]⟩) =
      .ok ⟨"GET", "http", "www.example.com", "8080", "/path", "HTTP/1.1",
        ParsedRequest.unparse
          ⟨"GET", "http", "www.example.com", "8080", "/path", "HTTP/1.1",
           "GET http://www.example.com:8080/path HTTP/1.1\r\nHost: www.example.com\r\nUser-Agent: test\r\n\r\n",
           [⟨"Host", "www.example.com"⟩, ⟨"User-Agent", "test"⟩]⟩,
        [⟨"Host", "www.example.com"⟩, ⟨"User-Agent", "test"⟩]⟩ :=
  claim_C2
    "GET http://www.example.com:8080/path HTTP/1.1\r\nHost: www.example.com\r\nUser-Agent: test\r\n\r\n"
    _ rfl

/-- C3 counterexample: the exact input with header lines `B: 1` then `A: 2`
parses successfully, but re-serializing the untouched request emits `A`
before `B` — the canonical (name-determined) order of the header map, not
the first-seen order — so the original byte ordering is not reproduced. -/
theorem claim_C3_counterexample :
    (parseCore "GET http://a.com/ HTTP/1.1\r\nB: 1\r\nA: 2\r\n\r\n").map
        ParsedRequest.unparse =
      .ok "GET http://a.com/ HTTP/1.1\r\nA: 2\r\nB: 1\r\n\r\n" ∧
    ("GET http://a.com/ HTTP/1.1\r\nA: 2\r\nB: 1\r\n\r\n" : String) ≠
      "GET http://a.com/ HTTP/1.1\r\nB: 1\r\nA: 2\r\n\r\n" :=
  ⟨rfl, by decide⟩

/-- C3 amended: the header table (a plain `std::unordered_map` with no side
order record) serializes in an order determined by its contents alone, not
by insertion history: `unparseHeaders()` is a function of the table, a later
upsert of an existing name changes only that entry's value while the
serialized name order is unchanged, and the upserted value is the one
retrieved. -/
theorem claim_C3 (r r2 : ParsedRequest) (hsame : r.headers = r2.headers)
    (k v : String) (wf : hmWF r.headers)
    (hk : k ∈ r.headers.map ParsedHeader.key) (hne : k ≠ "") :
    r.unparseHeaders = r2.unparseHeaders ∧
    ((r.setHeader k v).2).headerKeys = r.headerKeys ∧
    ((r.setHeader k v).2).getHeader k = some ⟨k, v⟩ := by
  refine ⟨by unfold ParsedRequest.unparseHeaders; rw [hsame], ?_, ?_⟩
  · unfold ParsedRequest.setHeader
    rw [if_neg hne]
    exact keys_hmInsert_of_mem wf hk v
  · unfold ParsedRequest.setHeader
    rw [if_neg hne]
    exact hmFind?_hmInsert_self r.headers k v

/-- Witness for the C3 amended theorem at a concrete one-header request. -/
theorem claim_C3_witness :
    (⟨"GET", "http", "a.com", "80", "/", "HTTP/1.1", "",
        [⟨"Host", "a.com"⟩]⟩ : ParsedRequest).unparseHeaders =
      (⟨"", "", "", "", "", "", "",
        [⟨"Host", "a.com"⟩]⟩ : ParsedRequest).unparseHeaders ∧
    ((⟨"GET", "http", "a.com", "80", "/", "HTTP/1.1", "",
        [⟨"Host", "a.com"⟩]⟩ : ParsedRequest).setHeader "Host"
        "b.com").2.headerKeys =
      (⟨"GET", "http", "a.com", "80", "/", "HTTP/1.1", "",
        [⟨"Host", "a.com"⟩]⟩ : ParsedRequest).headerKeys ∧
    ((⟨"GET", "http", "a.com", "80", "/", "HTTP/1.1", "",
        [⟨"Host", "a.com"⟩]⟩ : ParsedRequest).setHeader "Host"
        "b.com").2.getHeader "Host" = some ⟨"Host", "b.com"⟩ :=
  claim_C3 _ _ rfl "Host" "b.com" (by decide) (by decide) (by decide)

/-- C4 counterexample: two differently-malformed inputs (wrong request-line
token count versus a colonless header line) carry different error kinds in
the spec's enumeration, yet the `parse` member declared in the code returns
the same sentinel `(-1, unchanged object)` for both, so the caller cannot
tell the kinds apart from the return value. -/
theorem claim_C4_counterexample :
    parseCore "http://a.com/ HTTP/1.1\r\n\r\n" = .error .MalformedLine ∧
    parseCore "GET http://a.com/ HTTP/1.1\r\nX-Broken\r\n\r\n" =
      .error .MalformedHeaderLine ∧
    ParsedRequest.empty.parse "http://a.com/ HTTP/1.1\r\n\r\n" =
      ParsedRequest.empty.parse "GET http://a.com/ HTTP/1.1\r\nX-Broken\r\n\r\n" :=
  ⟨rfl, rfl, rfl⟩

/-- C4 amended: for every input buffer on which parsing fails — whatever the
internal error kind — the `parse` member returns the sentinel integer `-1`
with the object unchanged, as its declared contract states; no enumerated
error kind is surfaced to the caller. -/
theorem claim_C4 (r : ParsedRequest) (buffer : String) (e : ParseError)
    (h : parseCore buffer = .error e) : r.parse buffer = (-1, r) := by
  unfold ParsedRequest.parse
  rw [h]

/-- Witness for the C4 amended theorem at a concrete malformed buffer. -/
theorem claim_C4_witness :
    ParsedRequest.empty.parse "http://a.com/ HTTP/1.1\r\n\r\n" =
      (-1, ParsedRequest.empty) :=
  claim_C4 ParsedRequest.empty _ .MalformedLine rfl

/-- C5: parsing `"GET http://a.com/ HTTP/1.1\r\n\r\n"` succeeds with
`port = "80"` and re-serializes without an explicit `:80`; in general, a
request whose port equals its protocol's default renders its URI with no
port segment. -/
theorem claim_C5 :
    parseCore "GET http://a.com/ HTTP/1.1\r\n\r\n" =
      .ok ⟨"GET", "http", "a.com", "80", "/", "HTTP/1.1",
           "GET http://a.com/ HTTP/1.1\r\n\r\n", []⟩ ∧
    (parseCore "GET http://a.com/ HTTP/1.1\r\n\r\n").map ParsedRequest.unparse =
      .ok "GET http://a.com/ HTTP/1.1\r\n\r\n" ∧
    ∀ r : ParsedRequest, r.port = defaultPort r.protocol →
      renderRequestLine r =
        r.method ++ " " ++ r.protocol ++ "://" ++ r.host ++ r.path ++ " " ++
          r.version := by
  refine ⟨rfl, rfl, fun r hp => ?_⟩
  unfold renderRequestLine
  rw [if_pos hp, str_append_empty]

/-- Witness for C5's general no-default-port clause at the concrete parsed
request. -/
theorem claim_C5_witness :
    renderRequestLine ⟨"GET", "http", "a.com", "80", "/", "HTTP/1.1",
        "GET http://a.com/ HTTP/1.1\r\n\r\n", []⟩ =
      "GET" ++ " " ++ "http" ++ "://" ++ "a.com" ++ "/" ++ " " ++ "HTTP/1.1" :=
  claim_C5.2.2 _ rfl

/-- C6: parsing `"GET http://a.com:8080/x HTTP/1.1\r\n\r\n"` succeeds with
`port = "8080"` and the re-serialization carries `:8080` (it reproduces the
input exactly). -/
theorem claim_C6 :
    parseCore "GET http://a.com:8080/x HTTP/1.1\r\n\r\n" =
      .ok ⟨"GET", "http", "a.com", "8080", "/x", "HTTP/1.1",
           "GET http://a.com:8080/x HTTP/1.1\r\n\r\n", []⟩ ∧
    (parseCore "GET http://a.com:8080/x HTTP/1.1\r\n\r\n").map
        ParsedRequest.unparse =
      .ok "GET http://a.com:8080/x HTTP/1.1\r\n\r\n" :=
  ⟨rfl, rfl⟩

/-- C7: the request line `"http://a.com/ HTTP/1.1"` (two space-separated
tokens instead of three) fails with `MalformedLine`; a header line with no
colon such as `"X-Broken"` fails with `MalformedHeaderLine`, and any
colonless header line aborts the whole header parse no matter what lines
follow. -/
theorem claim_C7 :
    parseCore "http://a.com/ HTTP/1.1\r\n\r\n" = .error .MalformedLine ∧
    parseCore "GET http://a.com/ HTTP/1.1\r\nX-Broken\r\n\r\n" =
      .error .MalformedHeaderLine ∧
    ∀ (line : List Char) (rest : List (List Char)) (m : HeaderMap),
      (∀ c ∈ line, c ≠ ':') →
      parseHeaders (line :: rest) m = .error .MalformedHeaderLine := by
  refine ⟨rfl, rfl, fun line rest m hnc => ?_⟩
  rw [parseHeaders]
  unfold parseHeaderLine
  rw [splitFirstColon_eq_none hnc]

/-- Witness for C7's general colonless-header clause at the concrete line
`"X-Broken"`, with further lines present after it. -/
theorem claim_C7_witness :
    parseHeaders [['X', '-', 'B', 'r', 'o', 'k', 'e', 'n'],
        ['G', 'o', 'o', 'd', ':', ' ', 'v']] [] =
      .error .MalformedHeaderLine :=
  claim_C7.2.2 _ _ _ (by decide)

/-- C8: upserting `Host` twice leaves exactly one `Host` entry (the header
count is unchanged by the second call), `getHeader` returns the second
value, the serialized name order is unchanged by the second call, and both
calls succeed (return `0`) for the non-empty name. -/
theorem claim_C8 (r : ParsedRequest) (wf : hmWF r.headers) :
    (r.setHeader "Host" "a.com").1 = 0 ∧
    ((r.setHeader "Host" "a.com").2.setHeader "Host" "b.com").1 = 0 ∧
    ((r.setHeader "Host" "a.com").2.setHeader "Host"
        "b.com").2.headers.countP (fun h => h.key = "Host") = 1 ∧
    ((r.setHeader "Host" "a.com").2.setHeader "Host"
        "b.com").2.headerCount = (r.setHeader "Host" "a.com").2.headerCount ∧
    ((r.setHeader "Host" "a.com").2.setHeader "Host"
        "b.com").2.getHeader "Host" = some ⟨"Host", "b.com"⟩ ∧
    ((r.setHeader "Host" "a.com").2.setHeader "Host"
        "b.com").2.headerKeys = (r.setHeader "Host" "a.com").2.headerKeys := by
  have hne : ¬("Host" : String) = "" := by decide
  have hset : ∀ (s : ParsedRequest) (v : String),
      s.setHeader "Host" v =
        (0, { s with headers := hmInsert s.headers "Host" v }) := by
    intro s v
    unfold ParsedRequest.setHeader
    rw [if_neg hne]
  have wf1 : hmWF (hmInsert r.headers "Host" "a.com") := hmInsert_wf wf _ _
  have hm1 : "Host" ∈ (hmInsert r.headers "Host" "a.com").map ParsedHeader.key :=
    mem_keys_hmInsert_self r.headers "Host" "a.com"
  have hkeys :
      (hmInsert (hmInsert r.headers "Host" "a.com") "Host" "b.com").map
          ParsedHeader.key =
        (hmInsert r.headers "Host" "a.com").map ParsedHeader.key :=
    keys_hmInsert_of_mem wf1 hm1 "b.com"
  have wf2 : hmWF (hmInsert (hmInsert r.headers "Host" "a.com") "Host" "b.com") :=
    hmInsert_wf wf1 _ _
  have hm2 : "Host" ∈
      (hmInsert (hmInsert r.headers "Host" "a.com") "Host" "b.com").map
        ParsedHeader.key := by
    rw [hkeys]; exact hm1
  refine ⟨by rw [hset], by rw [hset, hset], ?_, ?_, ?_, ?_⟩
  · rw [hset, hset]
    exact countP_key_of_wf wf2 hm2
  · show (_ : ParsedRequest).headers.length = (_ : ParsedRequest).headers.length
    rw [hset, hset]
    show (hmInsert (hmInsert r.headers "Host" "a.com") "Host" "b.com").length = _
    rw [← List.length_map _ ParsedHeader.key, hkeys, List.length_map]
  · rw [hset, hset]
    exact hmFind?_hmInsert_self _ "Host" "b.com"
  · show (_ : ParsedRequest).headers.map _ = (_ : ParsedRequest).headers.map _
    rw [hset, hset]
    exact hkeys

/-- Witness for C8 at the default-constructed request. -/
theorem claim_C8_witness :
    (ParsedRequest.empty.setHeader "Host" "a.com").1 = 0 ∧
    ((ParsedRequest.empty.setHeader "Host" "a.com").2.setHeader "Host"
        "b.com").1 = 0 ∧
    ((ParsedRequest.empty.setHeader "Host" "a.com").2.setHeader "Host"
        "b.com").2.headers.countP (fun h => h.key = "Host") = 1 ∧
    ((ParsedRequest.empty.setHeader "Host" "a.com").2.setHeader "Host"
        "b.com").2.headerCount =
      (ParsedRequest.empty.setHeader "Host" "a.com").2.headerCount ∧
    ((ParsedRequest.empty.setHeader "Host" "a.com").2.setHeader "Host"
        "b.com").2.getHeader "Host" = some ⟨"Host", "b.com"⟩ ∧
    ((ParsedRequest.empty.setHeader "Host" "a.com").2.setHeader "Host"
        "b.com").2.headerKeys =
      (ParsedRequest.empty.setHeader "Host" "a.com").2.headerKeys :=
  claim_C8 ParsedRequest.empty List.Pairwise.nil

/-- C9: `unparse()` is exactly the rendered request line, CRLF,
`unparseHeaders()`, and one further CRLF; with zero headers the trailing
boundary CRLF is still emitted. -/
theorem claim_C9 (r : ParsedRequest) :
    r.unparse = renderRequestLine r ++ "\r\n" ++ r.unparseHeaders ++ "\r\n" ∧
    (r.headers = [] →
      r.unparse = renderRequestLine r ++ "\r\n" ++ "" ++ "\r\n") := by
  refine ⟨rfl, fun h => ?_⟩
  unfold ParsedRequest.unparse ParsedRequest.unparseHeaders
  rw [h]
  rfl

/-- Witness for C9's zero-header clause at the default-constructed request. -/
theorem claim_C9_witness :
    ParsedRequest.empty.unparse =
      renderRequestLine ParsedRequest.empty ++ "\r\n" ++ "" ++ "\r\n" :=
  (claim_C9 ParsedRequest.empty).2 rfl

/-- C10: for a key not present in the header table, `getHeader` returns the
not-found result (`nullptr`, here `none`) and `removeHeader` returns the
failure code `-1` with the object — header table and all request-line
fields — unchanged. -/
theorem claim_C10 (r : ParsedRequest) (k : String)
    (habs : ∀ h ∈ r.headers, h.key ≠ k) :
    r.getHeader k = none ∧ r.removeHeader k = (-1, r) := by
  have hf : hmFind? r.headers k = none := hmFind?_eq_none habs
  refine ⟨hf, ?_⟩
  unfold ParsedRequest.removeHeader
  rw [hf]

/-- Witness for C10 at a concrete request with a different header present. -/
theorem claim_C10_witness :
    (⟨"GET", "http", "a.com", "80", "/", "HTTP/1.1", "",
        [⟨"Host", "a.com"⟩]⟩ : ParsedRequest).getHeader "User-Agent" = none ∧
    (⟨"GET", "http", "a.com", "80", "/", "HTTP/1.1", "",
        [⟨"Host", "a.com"⟩]⟩ : ParsedRequest).removeHeader "User-Agent" =
      (-1, ⟨"GET", "http", "a.com", "80", "/", "HTTP/1.1", "",
        [⟨"Host", "a.com"⟩]⟩) :=
  claim_C10 _ "User-Agent" (by decide)

end ProxyParse
